import Mathlib

/-!
Verification of the chunked parallel spatial join (`sjoin_mp` / `sjoin`) in
`create_lotic_water.py` of the Riparian repository.

The left GeoDataFrame passed to `sjoin_mp` carries two columns, `id` (an
integer identifier) and `geometry`; it is modelled as a list of `Row`s.  The
right GeoDataFrame carries only a `geometry` column and is modelled as a list
of geometries.  Geometries are kept abstract (a type `G`), and the spatial
predicate named by the string `sjoin_op` ("intersects", "within", "contains")
is modelled as an abstract boolean predicate on geometries, since its
semantics are delegated to the geometry engine.

`gpd.sjoin(df1, df2, how='inner', op=sjoin_op)` produces one output row per
(left row, right geometry) pair satisfying the predicate; each output row
carries the left row's columns (`id`, `geometry`) together with the positional
index of the right geometry (the `index_right` column, since `df2` carries a
default range index).  `drop_duplicates` then removes duplicated output rows
(all columns compared, first occurrence kept), and the worker returns the
list of values of the `id` column.
-/

/-- A row of the left GeoDataFrame handed to `sjoin_mp`: an integer `id`
column and a `geometry` column. -/
structure Row (G : Type) where
  id : Int
  geom : G
deriving DecidableEq, Repr

/-- Python list slicing `l[mn:mx]` for `0 ≤ mn ≤ mx`. -/
def pySlice {α : Type} (l : List α) (mn mx : ℕ) : List α :=
  (l.drop mn).take (mx - mn)

/-- `NUM_CPUS` in `sjoin_mp` (line 63): the fixed worker count, 6. -/
def NUM_CPUS : ℕ := 6

/-- `batch_size` in `sjoin_mp` (line 63): `int(len(df1) / 6) + 1`, i.e.
`⌊n / 6⌋ + 1`. -/
def batchSize (n : ℕ) : ℕ := n / NUM_CPUS + 1

/-- Recursion for `dropDuplicates`: keep a row unless it already appeared
(the `seen` accumulator holds the rows kept so far). -/
def dropDupAux {α : Type} [DecidableEq α] : List α → List α → List α
  | [], _ => []
  | a :: as, seen =>
    if a ∈ seen then dropDupAux as seen else a :: dropDupAux as (a :: seen)

/-- `pandas.DataFrame.drop_duplicates()`: keep the first occurrence of every
row, drop later repetitions (all columns compared). -/
def dropDuplicates {α : Type} [DecidableEq α] (l : List α) : List α :=
  dropDupAux l []

/-- The rows produced by `gpd.sjoin(df1, df2, how='inner', op=sjoin_op)`
(line 91): for every left row, one output row per right geometry satisfying
the predicate, carrying the left row and the right geometry's positional
index (the `index_right` column). -/
def sjoinRows {G : Type} (df1 : List (Row G)) (df2 : List G)
    (sjoin_op : G → G → Bool) : List (Row G × ℕ) :=
  df1.flatMap (fun r =>
    df2.enum.filterMap (fun q =>
      if sjoin_op r.geom q.2 then some (r, q.1) else none))

/-- The worker `sjoin(args)` (lines 78-93): unpack the argument tuple, run the
inner spatial join, drop duplicate rows, and return the `id` column as a
list. -/
def sjoin {G : Type} [DecidableEq G]
    (args : List (Row G) × List G × (G → G → Bool)) : List Int :=
  let (df1, df2, sjoin_op) := args
  (dropDuplicates (sjoinRows df1 df2 sjoin_op)).map (fun q => q.1.id)

/-- Chunk `i` built by the loop in `sjoin_mp` (lines 67-70):
`df1[i*batch_size : (i+1)*batch_size]`. -/
def codeChunk {G : Type} (df1 : List (Row G)) (i : ℕ) : List (Row G) :=
  pySlice df1 (i * batchSize df1.length) ((i + 1) * batchSize df1.length)

/-- `chunk_iterator` (lines 66-70): the list of `NUM_CPUS` argument tuples
`(df1[mn:mx], df2, sjoin_op)` handed to the pool. -/
def chunkIterator {G : Type} (df1 : List (Row G)) (df2 : List G)
    (sjoin_op : G → G → Bool) :
    List (List (Row G) × List G × (G → G → Bool)) :=
  (List.range NUM_CPUS).map (fun i => (codeChunk df1 i, df2, sjoin_op))

/-- `sjoin_mp(df1, sjoin_op, df2)` (lines 51-76): build the chunk iterator,
map the worker over it (`pool.map` returns results in the order of its input
iterable), and flatten with `sum(sj_results, [])`. -/
def sjoin_mp {G : Type} [DecidableEq G] (df1 : List (Row G))
    (sjoin_op : G → G → Bool) (df2 : List G) : List Int :=
  ((chunkIterator df1 df2 sjoin_op).map sjoin).flatten

/-- Scheduling model of the process pool: the workers finish in the order
given by `order` (a permutation of the worker indices), and each completion
is logged as the pair (worker index, worker result). -/
def runSched (order : List ℕ) (w : ℕ → List Int) : List (ℕ × List Int) :=
  order.map (fun i => (i, w i))

/-- `pool.map`'s reassembly of the completion log: results are returned in
input order (looked up by worker index), not completion order. -/
def assemble (k : ℕ) (completed : List (ℕ × List Int)) : List (List Int) :=
  (List.range k).filterMap (fun i => completed.lookup i)

/-- `sjoin_mp` with the pool's scheduling made explicit: the workers complete
in the order `order`, and `pool.map` reassembles their results by worker
index before the coordinator flattens them. -/
def sjoin_mp_sched {G : Type} [DecidableEq G] (order : List ℕ)
    (df1 : List (Row G)) (sjoin_op : G → G → Bool) (df2 : List G) :
    List Int :=
  (assemble NUM_CPUS
    (runSched order (fun i => sjoin (codeChunk df1 i, df2, sjoin_op)))).flatten

/-- The chunk-size formula as claim C2 states it: `ceil(N / NUM_CPUS)`. -/
def ceilBatch (n : ℕ) : ℕ := (n + NUM_CPUS - 1) / NUM_CPUS

/-- Chunk `i` as claim C2 states it: the index range
`[i*ceil(N/K), (i+1)*ceil(N/K))` clipped to `N`. -/
def claimChunk {G : Type} (df1 : List (Row G)) (i : ℕ) : List (Row G) :=
  pySlice df1 (i * ceilBatch df1.length) ((i + 1) * ceilBatch df1.length)

/-- A concrete left collection of 6 rows (ids 0..5). -/
def exampleSix : List (Row ℕ) :=
  [⟨0, 0⟩, ⟨1, 0⟩, ⟨2, 0⟩, ⟨3, 0⟩, ⟨4, 0⟩, ⟨5, 0⟩]

/-- A concrete left collection of 13 rows (ids 0..12). -/
def exampleThirteen : List (Row ℕ) :=
  [⟨0, 0⟩, ⟨1, 0⟩, ⟨2, 0⟩, ⟨3, 0⟩, ⟨4, 0⟩, ⟨5, 0⟩, ⟨6, 0⟩,
   ⟨7, 0⟩, ⟨8, 0⟩, ⟨9, 0⟩, ⟨10, 0⟩, ⟨11, 0⟩, ⟨12, 0⟩]

/-! ### Helper lemmas -/

theorem mem_dropDupAux {α : Type} [DecidableEq α] (a : α) :
    ∀ l seen : List α, a ∈ dropDupAux l seen ↔ a ∈ l ∧ a ∉ seen := by
  intro l
  induction l with
  | nil => intro seen; simp [dropDupAux]
  | cons b bs ih =>
    intro seen
    rw [dropDupAux]
    by_cases hb : b ∈ seen
    · rw [if_pos hb, ih seen]
      constructor
      · rintro ⟨h1, h2⟩
        exact ⟨List.mem_cons_of_mem b h1, h2⟩
      · rintro ⟨h1, h2⟩
        rcases List.mem_cons.mp h1 with rfl | h1
        · exact absurd hb h2
        · exact ⟨h1, h2⟩
    · rw [if_neg hb]
      simp only [List.mem_cons, ih (b :: seen)]
      constructor
      · rintro (rfl | ⟨h1, h2⟩)
        · exact ⟨Or.inl rfl, hb⟩
        · exact ⟨Or.inr h1, fun hc => h2 (Or.inr hc)⟩
      · rintro ⟨rfl | h1, h2⟩
        · exact Or.inl rfl
        · by_cases hab : a = b
          · exact Or.inl hab
          · exact Or.inr ⟨h1, by simp [hab, h2]⟩

theorem mem_dropDuplicates {α : Type} [DecidableEq α] (a : α) (l : List α) :
    a ∈ dropDuplicates l ↔ a ∈ l := by
  simp [dropDuplicates, mem_dropDupAux]

theorem dropDupAux_eq_self {α : Type} [DecidableEq α] :
    ∀ l seen : List α, l.Nodup → (∀ a ∈ l, a ∉ seen) →
      dropDupAux l seen = l := by
  intro l
  induction l with
  | nil => intro seen _ _; rfl
  | cons b bs ih =>
    intro seen hnd hdis
    rw [dropDupAux, if_neg (hdis b (List.mem_cons_self b bs))]
    congr 1
    refine ih (b :: seen) (List.nodup_cons.mp hnd).2 ?_
    intro a ha
    intro hc
    rcases List.mem_cons.mp hc with rfl | hc
    · exact (List.nodup_cons.mp hnd).1 ha
    · exact hdis a (List.mem_cons_of_mem b ha) hc

theorem dropDuplicates_eq_self {α : Type} [DecidableEq α] (l : List α)
    (h : l.Nodup) : dropDuplicates l = l :=
  dropDupAux_eq_self l [] h (by simp)

theorem mem_of_mem_pySlice {α : Type} {a : α} {l : List α} {mn mx : ℕ}
    (h : a ∈ pySlice l mn mx) : a ∈ l :=
  List.mem_of_mem_drop (List.mem_of_mem_take h)

theorem pySlice_zero {α : Type} (l : List α) (b : ℕ) :
    pySlice l 0 b = l.take b := by
  simp [pySlice]

theorem pySlice_shift {α : Type} (l : List α) (b i : ℕ) :
    pySlice l ((i + 1) * b) ((i + 1 + 1) * b) =
      pySlice (l.drop b) (i * b) ((i + 1) * b) := by
  unfold pySlice
  rw [List.drop_drop]
  have h1 : (i + 1) * b = i * b + b := by ring
  have h2 : (i + 1 + 1) * b = (i + 1) * b + b := by ring
  rw [show b + i * b = (i + 1) * b by omega]
  congr 1
  omega

theorem flatten_pySlices {α : Type} (b : ℕ) :
    ∀ (k : ℕ) (l : List α), l.length ≤ k * b →
      ((List.range k).map (fun i => pySlice l (i * b) ((i + 1) * b))).flatten = l := by
  intro k
  induction k with
  | zero =>
    intro l h
    simp only [Nat.zero_mul, Nat.le_zero] at h
    simp [List.eq_nil_of_length_eq_zero h]
  | succ k ih =>
    intro l h
    rw [List.range_succ_eq_map, List.map_cons, List.flatten_cons, List.map_map]
    have hmap : ((fun i => pySlice l (i * b) ((i + 1) * b)) ∘ Nat.succ)
        = fun i => pySlice (l.drop b) (i * b) ((i + 1) * b) := by
      funext i
      show pySlice l ((i + 1) * b) ((i + 1 + 1) * b) = _
      exact pySlice_shift l b i
    rw [hmap, ih (l.drop b)
      (by rw [List.length_drop]; rw [Nat.succ_mul] at h; omega)]
    simp [pySlice, List.take_append_drop]

theorem chunks_flatten {G : Type} (df1 : List (Row G)) :
    ((List.range NUM_CPUS).map (codeChunk df1)).flatten = df1 := by
  have hlt := Nat.lt_mul_div_succ df1.length (show 0 < 6 by norm_num)
  have h : df1.length ≤ NUM_CPUS * batchSize df1.length := by
    simpa [NUM_CPUS, batchSize] using hlt.le
  simpa [codeChunk] using
    flatten_pySlices (batchSize df1.length) NUM_CPUS df1 h

theorem mem_sjoin {G : Type} [DecidableEq G] (x : Int) (c : List (Row G))
    (d : List G) (p : G → G → Bool) :
    x ∈ sjoin (c, d, p) ↔ ∃ r ∈ c, r.id = x ∧ ∃ g ∈ d, p r.geom g = true := by
  simp only [sjoin, List.mem_map, mem_dropDuplicates, sjoinRows,
    List.mem_flatMap, List.mem_filterMap]
  constructor
  · rintro ⟨⟨r, j⟩, ⟨s, hs, q, hq, hf⟩, rfl⟩
    split_ifs at hf with hp
    · obtain ⟨rfl, rfl⟩ : s = r ∧ q.1 = j := by
        simpa [Prod.ext_iff] using hf
      refine ⟨s, hs, rfl, q.2, ?_, hp⟩
      have : q.2 ∈ d.enum.map Prod.snd := List.mem_map_of_mem Prod.snd hq
      rwa [List.enum_map_snd] at this
  · rintro ⟨r, hr, rfl, g, hg, hp⟩
    have : g ∈ d.enum.map Prod.snd := by rwa [List.enum_map_snd]
    obtain ⟨q, hq, hq2⟩ := List.mem_map.mp this
    exact ⟨(r, q.1), ⟨r, hr, q, hq, by simp [hq2, hp]⟩, rfl⟩

theorem mem_sjoin_mp {G : Type} [DecidableEq G] (x : Int)
    (df1 : List (Row G)) (p : G → G → Bool) (d : List G) :
    x ∈ sjoin_mp df1 p d ↔
      ∃ r ∈ df1, r.id = x ∧ ∃ g ∈ d, p r.geom g = true := by
  unfold sjoin_mp chunkIterator
  rw [List.mem_flatten]
  constructor
  · rintro ⟨l, hl, hx⟩
    obtain ⟨args, hargs, rfl⟩ := List.mem_map.mp hl
    obtain ⟨i, -, rfl⟩ := List.mem_map.mp hargs
    obtain ⟨r, hr, hid, hg⟩ := (mem_sjoin x _ d p).mp hx
    exact ⟨r, mem_of_mem_pySlice hr, hid, hg⟩
  · rintro ⟨r, hr, hid, hg⟩
    rw [← chunks_flatten df1, List.mem_flatten] at hr
    obtain ⟨c, hc, hrc⟩ := hr
    obtain ⟨i, hi, rfl⟩ := List.mem_map.mp hc
    refine ⟨sjoin (codeChunk df1 i, d, p), ?_, (mem_sjoin x _ d p).mpr ⟨r, hrc, hid, hg⟩⟩
    exact List.mem_map_of_mem sjoin (List.mem_map_of_mem _ hi)

theorem lookup_map_pair {β : Type} (w : ℕ → β) :
    ∀ (order : List ℕ) (i : ℕ), i ∈ order →
      (order.map (fun j => (j, w j))).lookup i = some (w i) := by
  intro order
  induction order with
  | nil => intro i hi; exact absurd hi (List.not_mem_nil i)
  | cons a as ih =>
    intro i hi
    by_cases hia : a = i
    · subst hia
      simp [List.lookup]
    · have : i ∈ as := by
        rcases List.mem_cons.mp hi with h | h
        · exact absurd h.symm hia
        · exact h
      have hba : (i == a) = false := beq_eq_false_iff_ne.mpr (Ne.symm hia)
      simp [List.lookup, hba, ih i this]

theorem filterMap_eq_map_of_eq_some {α β : Type} (f : α → Option β)
    (g : α → β) :
    ∀ l : List α, (∀ a ∈ l, f a = some (g a)) → l.filterMap f = l.map g := by
  intro l
  induction l with
  | nil => intro _; rfl
  | cons a as ih =>
    intro h
    rw [List.filterMap_cons, h a (List.mem_cons_self a as), List.map_cons,
      ih (fun b hb => h b (List.mem_cons_of_mem a hb))]

theorem assemble_runSched (w : ℕ → List Int) (order : List ℕ) (k : ℕ)
    (h : ∀ i < k, i ∈ order) :
    assemble k (runSched order w) = (List.range k).map w := by
  unfold assemble runSched
  exact filterMap_eq_map_of_eq_some _ w (List.range k)
    (fun i hi => lookup_map_pair w order i (h i (List.mem_range.mp hi)))

theorem sched_eq {G : Type} [DecidableEq G] (order : List ℕ)
    (df1 : List (Row G)) (p : G → G → Bool) (d : List G)
    (h : order.Perm (List.range NUM_CPUS)) :
    sjoin_mp_sched order df1 p d = sjoin_mp df1 p d := by
  unfold sjoin_mp_sched sjoin_mp chunkIterator
  rw [assemble_runSched _ order NUM_CPUS
    (fun i hi => h.mem_iff.mpr (List.mem_range.mpr hi))]
  rw [List.map_map]
  rfl

theorem sjoin_nil {G : Type} [DecidableEq G] (d : List G) (p : G → G → Bool) :
    sjoin (([] : List (Row G)), d, p) = [] := by
  simp [sjoin, sjoinRows, dropDuplicates, dropDupAux]

theorem enumFrom_filterMap_rows {G : Type} [DecidableEq G] (r : Row G)
    (p : G → Bool) :
    ∀ (d : List G) (n : ℕ),
      ((List.enumFrom n d).filterMap
          (fun q => if p q.2 then some (r, q.1) else none)).length = d.countP p
      ∧ (∀ x ∈ (List.enumFrom n d).filterMap
          (fun q => if p q.2 then some (r, q.1) else none), x.1 = r ∧ n ≤ x.2)
      ∧ ((List.enumFrom n d).filterMap
          (fun q => if p q.2 then some (r, q.1) else none)).Nodup := by
  intro d
  induction d with
  | nil => intro n; simp
  | cons g d ih =>
    intro n
    rw [show List.enumFrom n (g :: d) = (n, g) :: List.enumFrom (n + 1) d from rfl,
      List.filterMap_cons]
    obtain ⟨ih1, ih2, ih3⟩ := ih (n + 1)
    by_cases hp : p g = true
    · simp only [hp, if_true, List.countP_cons]
      refine ⟨?_, ?_, ?_⟩
      · simp [ih1, hp]
      · intro x hx
        rcases List.mem_cons.mp hx with rfl | hx
        · exact ⟨rfl, Nat.le_refl n⟩
        · exact ⟨(ih2 x hx).1, Nat.le_of_succ_le (ih2 x hx).2⟩
      · rw [List.nodup_cons]
        refine ⟨fun hmem => ?_, ih3⟩
        have := (ih2 _ hmem).2
        simp at this
    · have hpf : p g = false := Bool.eq_false_iff.mpr hp
      simp only [hpf, Bool.false_eq_true, if_false, List.countP_cons]
      refine ⟨by simp [ih1, hpf], ?_, ih3⟩
      intro x hx
      exact ⟨(ih2 x hx).1, Nat.le_of_succ_le (ih2 x hx).2⟩

theorem fst_mem_of_mem_sjoinRows {G : Type} (c : List (Row G)) (d : List G)
    (p : G → G → Bool) : ∀ x ∈ sjoinRows c d p, x.1 ∈ c := by
  intro x hx
  obtain ⟨s, hs, hq⟩ := List.mem_flatMap.mp hx
  obtain ⟨q, -, hf⟩ := List.mem_filterMap.mp hq
  split_ifs at hf with hp
  · obtain rfl := Option.some.inj hf
    exact hs

theorem sjoinRows_cons {G : Type} (s : Row G) (c : List (Row G)) (d : List G)
    (p : G → G → Bool) :
    sjoinRows (s :: c) d p
      = d.enum.filterMap
          (fun q => if p s.geom q.2 then some (s, q.1) else none)
        ++ sjoinRows c d p := by
  simp [sjoinRows]

theorem sjoinRows_nodup {G : Type} [DecidableEq G] (c : List (Row G)) (d : List G)
    (p : G → G → Bool) (hnd : c.Nodup) : (sjoinRows c d p).Nodup := by
  induction c with
  | nil => simp [sjoinRows]
  | cons s c ih =>
    rw [sjoinRows_cons, List.nodup_append]
    obtain ⟨-, h2, h3⟩ := enumFrom_filterMap_rows s (p s.geom) d 0
    have h2e : ∀ x ∈ d.enum.filterMap
        (fun q => if p s.geom q.2 then some (s, q.1) else none), x.1 = s :=
      fun x hx => (h2 x hx).1
    have h3e : (d.enum.filterMap
        (fun q => if p s.geom q.2 then some (s, q.1) else none)).Nodup := h3
    refine ⟨h3e, ih (List.nodup_cons.mp hnd).2, ?_⟩
    intro x hx hx2
    have hmem := fst_mem_of_mem_sjoinRows c d p x hx2
    rw [h2e x hx] at hmem
    exact (List.nodup_cons.mp hnd).1 hmem

theorem countP_sjoinRows {G : Type} [DecidableEq G] (r : Row G)
    (c : List (Row G)) (d : List G) (p : G → G → Bool)
    (hinj : ∀ s ∈ c, s.id = r.id → s = r) :
    (sjoinRows c d p).countP (fun x => x.1.id == r.id)
      = c.count r * d.countP (p r.geom) := by
  induction c with
  | nil => simp [sjoinRows]
  | cons s c ih =>
    have hinjc : ∀ t ∈ c, t.id = r.id → t = r :=
      fun t ht => hinj t (List.mem_cons_of_mem s ht)
    rw [sjoinRows_cons, List.countP_append, ih hinjc]
    obtain ⟨h1, h2, -⟩ := enumFrom_filterMap_rows s (p s.geom) d 0
    have h1e : (d.enum.filterMap
        (fun q => if p s.geom q.2 then some (s, q.1) else none)).length
        = d.countP (p s.geom) := h1
    have h2e : ∀ x ∈ d.enum.filterMap
        (fun q => if p s.geom q.2 then some (s, q.1) else none), x.1 = s :=
      fun x hx => (h2 x hx).1
    by_cases hs : s = r
    · subst hs
      rw [List.count_cons_self]
      have hall : (d.enum.filterMap
          (fun q => if p s.geom q.2 then some (s, q.1) else none)).countP
            (fun x => x.1.id == s.id)
          = (d.enum.filterMap
            (fun q => if p s.geom q.2 then some (s, q.1) else none)).length :=
        List.countP_eq_length.mpr (fun x hx => by rw [h2e x hx]; simp)
      rw [hall, h1e]
      ring
    · have hne : ¬ s.id = r.id :=
        fun he => hs (hinj s (List.mem_cons_self s c) he)
      have hzero : (d.enum.filterMap
          (fun q => if p s.geom q.2 then some (s, q.1) else none)).countP
            (fun x => x.1.id == r.id) = 0 :=
        List.countP_eq_zero.mpr (fun x hx hp2 => hne (by
          rw [h2e x hx] at hp2
          exact beq_iff_eq.mp hp2))
      rw [hzero, List.count_cons_of_ne (fun he => hs he.symm)]
      exact Nat.zero_add _

theorem count_sjoin_worker {G : Type} [DecidableEq G] (r : Row G)
    (c : List (Row G)) (d : List G) (p : G → G → Bool)
    (hnd : c.Nodup) (hinj : ∀ s ∈ c, s.id = r.id → s = r) :
    (sjoin (c, d, p)).count r.id = c.count r * d.countP (p r.geom) := by
  show ((dropDuplicates (sjoinRows c d p)).map (fun q => q.1.id)).count r.id = _
  rw [dropDuplicates_eq_self _ (sjoinRows_nodup c d p hnd)]
  have hcnt : ((sjoinRows c d p).map (fun q => q.1.id)).count r.id
      = (sjoinRows c d p).countP (fun x => x.1.id == r.id) := by
    simp only [List.count, List.countP_map]
    rfl
  rw [hcnt, countP_sjoinRows r c d p hinj]

theorem codeChunk_sublist {G : Type} (df1 : List (Row G)) (i : ℕ) :
    List.Sublist (codeChunk df1 i) df1 :=
  (List.take_sublist _ _).trans (List.drop_sublist _ _)

theorem count_flatten_eq_sum {α : Type} [BEq α] (L : List (List α)) (a : α) :
    L.flatten.count a = (L.map (fun l => l.count a)).sum := by
  induction L with
  | nil => rfl
  | cons l L ih => simp [List.count_append, ih]

/-! ### Claim theorems -/

/-- C1, counterexample: in the sequence returned by `sjoin_mp`, the
identifier of a left geometry that satisfies the predicate against 3
distinct right geometries appears three times, not once: `drop_duplicates`
compares whole rows, and the three matched rows differ in their
`index_right` column, so none is dropped.  Concretely, for a single left
row with id 0 matching all three right geometries, the result is
`[0, 0, 0]`, which contains duplicates. -/
theorem C1_counterexample :
    (sjoin_mp [(⟨0, 0⟩ : Row ℕ)] (fun _ _ => true) [10, 20, 30]).count 0 = 3
    ∧ ¬ (sjoin_mp [(⟨0, 0⟩ : Row ℕ)] (fun _ _ => true) [10, 20, 30]).Nodup := by
  decide

/-- C1, amended: for every left collection whose identifiers are distinct
(as the pipeline assigns them, `id = range(len)`), the identifier of any
record appears in the sequence returned by `sjoin_mp` exactly once per
right geometry satisfying the predicate against that record's geometry (so
3 times when it matches 3 right geometries, not once): `drop_duplicates`
drops only duplicated (row, right-index) rows, which leaves one output row
per matching right geometry. -/
theorem C1_count_eq_matches {G : Type} [DecidableEq G] (df1 : List (Row G))
    (p : G → G → Bool) (d : List G) (r : Row G)
    (hids : (df1.map Row.id).Nodup) (hr : r ∈ df1) :
    (sjoin_mp df1 p d).count r.id = d.countP (p r.geom) := by
  have hnd : df1.Nodup := hids.of_map
  have hinj : ∀ s ∈ df1, s.id = r.id → s = r :=
    fun s hs he => List.inj_on_of_nodup_map hids hs hr he
  have hchunk : ∀ i : ℕ, (sjoin (codeChunk df1 i, d, p)).count r.id
      = (codeChunk df1 i).count r * d.countP (p r.geom) := by
    intro i
    have hsub := codeChunk_sublist df1 i
    exact count_sjoin_worker r _ d p (hnd.sublist hsub)
      (fun s hs => hinj s (hsub.subset hs))
  have hflat : ((List.range NUM_CPUS).map (codeChunk df1)).flatten.count r
      = df1.count r := by rw [chunks_flatten]
  rw [count_flatten_eq_sum, List.map_map] at hflat
  have hflat2 : ((List.range NUM_CPUS).map
      (fun i => (codeChunk df1 i).count r)).sum = df1.count r := hflat
  unfold sjoin_mp chunkIterator
  rw [List.map_map, count_flatten_eq_sum, List.map_map]
  have hmap : (List.range NUM_CPUS).map
        ((fun l => l.count r.id) ∘ (sjoin ∘ fun i => (codeChunk df1 i, d, p)))
      = (List.range NUM_CPUS).map
        (fun i => (codeChunk df1 i).count r * d.countP (p r.geom)) :=
    List.map_congr_left (fun i _ => hchunk i)
  rw [hmap, List.sum_map_mul_right, hflat2,
    List.count_eq_one_of_mem hnd hr, Nat.one_mul]

/-- C2, counterexample: the chunk ranges built by `sjoin_mp` are
`[i*(⌊N/6⌋+1), (i+1)*(⌊N/6⌋+1))`, not `[i*⌈N/6⌉, (i+1)*⌈N/6⌉)` as the
claim states; the two differ whenever 6 divides N > 0.  For a concrete
left collection of 6 rows the code produces chunk sizes [2,2,2,0,0,0]
while the claimed formula gives [1,1,1,1,1,1]. -/
theorem C2_counterexample :
    (List.range NUM_CPUS).map (codeChunk exampleSix)
      ≠ (List.range NUM_CPUS).map (claimChunk exampleSix) := by
  decide

/-- C2, amended: the chunk partitioner produces exactly 6 contiguous index
ranges `[i*b, (i+1)*b)` clipped to N, with `b = ⌊N/6⌋ + 1` (which equals
`⌈N/6⌉` whenever 6 does not divide N); in particular for N = 13 the chunk
sizes are [3,3,3,3,1,0] and the chunks together hold 13 records. -/
theorem C2_chunk_ranges {G : Type} (df1 : List (Row G)) :
    (∀ i, codeChunk df1 i
        = pySlice df1 (i * (df1.length / 6 + 1)) ((i + 1) * (df1.length / 6 + 1)))
    ∧ (df1.length = 13 →
        (List.range NUM_CPUS).map (fun i => (codeChunk df1 i).length)
            = [3, 3, 3, 3, 1, 0]
        ∧ ((List.range NUM_CPUS).map (fun i => (codeChunk df1 i).length)).sum
            = 13) := by
  constructor
  · intro i; rfl
  · intro h13
    have hb : batchSize 13 = 3 := by norm_num [batchSize, NUM_CPUS]
    have hlen : ∀ i, (codeChunk df1 i).length
        = min ((i + 1) * 3 - i * 3) (13 - i * 3) := by
      intro i
      simp [codeChunk, pySlice, hb, h13]
    have hmap : (List.range NUM_CPUS).map (fun i => (codeChunk df1 i).length)
        = [3, 3, 3, 3, 1, 0] := by
      rw [show List.range NUM_CPUS = [0, 1, 2, 3, 4, 5] from rfl]
      simp [hlen]
    exact ⟨hmap, by rw [hmap]; rfl⟩

/-- C3: the chunks built by `sjoin_mp` partition the left collection
exactly: concatenating them in order recovers the collection, and every
record position lies in exactly one chunk's index range (so chunks are
non-overlapping and nothing is skipped). -/
theorem C3_chunks_partition {G : Type} (df1 : List (Row G)) :
    ((List.range NUM_CPUS).map (codeChunk df1)).flatten = df1
    ∧ ∀ n, n < df1.length →
        ∃! i, i < NUM_CPUS ∧ i * batchSize df1.length ≤ n
          ∧ n < (i + 1) * batchSize df1.length := by
  refine ⟨chunks_flatten df1, ?_⟩
  intro n hn
  have hb0 : 0 < batchSize df1.length := Nat.succ_pos _
  refine ⟨n / batchSize df1.length, ⟨?_, ?_, ?_⟩, ?_⟩
  · rw [Nat.div_lt_iff_lt_mul hb0]
    have h1 : df1.length < NUM_CPUS * batchSize df1.length := by
      simpa [NUM_CPUS, batchSize] using
        Nat.lt_mul_div_succ df1.length (show (0:ℕ) < 6 by norm_num)
    exact lt_trans hn h1
  · exact Nat.div_mul_le_self n _
  · simpa [Nat.mul_comm] using Nat.lt_mul_div_succ n hb0
  · rintro j ⟨-, hj1, hj2⟩
    exact (Nat.div_eq_of_lt_le hj1 hj2).symm

/-- C4: partition invariance — an identifier occurs in the `sjoin_mp`
result (the concatenation of the per-chunk worker outputs) exactly when it
occurs in the output of running the same worker on the entire unpartitioned
left collection, so the de-duplicated result sets coincide. -/
theorem C4_partition_invariance {G : Type} [DecidableEq G]
    (df1 : List (Row G)) (df2 : List G) (p : G → G → Bool) (x : Int) :
    x ∈ sjoin_mp df1 p df2 ↔ x ∈ sjoin (df1, df2, p) := by
  rw [mem_sjoin_mp, mem_sjoin]

/-- C5: every identifier returned by `sjoin_mp` is the identifier of some
record of the left collection. -/
theorem C5_result_subset_ids {G : Type} [DecidableEq G]
    (df1 : List (Row G)) (p : G → G → Bool) (df2 : List G) (x : Int)
    (h : x ∈ sjoin_mp df1 p df2) : x ∈ df1.map Row.id := by
  obtain ⟨r, hr, hid, -⟩ := (mem_sjoin_mp x df1 p df2).mp h
  exact hid ▸ List.mem_map_of_mem Row.id hr

/-- C6: for a non-empty left collection and any predicate, `sjoin_mp`
against an empty right collection returns the empty list (a normal return,
not an error — the model is total). -/
theorem C6_empty_right {G : Type} [DecidableEq G] (df1 : List (Row G))
    (p : G → G → Bool) (h : df1 ≠ []) :
    sjoin_mp df1 p ([] : List G) = [] := by
  rw [List.eq_nil_iff_forall_not_mem]
  intro x hx
  obtain ⟨-, -, -, g, hg, -⟩ := (mem_sjoin_mp x df1 p []).mp hx
  exact absurd hg (List.not_mem_nil g)

/-- C7: when the left collection has fewer records than the 6 workers, the
trailing chunks are empty (no error is raised: the model is total), the
worker maps an empty chunk to an empty result, and `sjoin_mp` on an empty
left collection returns the empty list. -/
theorem C7_small_left {G : Type} [DecidableEq G] (df1 : List (Row G))
    (d : List G) (p : G → G → Bool) (h : df1.length < NUM_CPUS) :
    (∀ i, df1.length ≤ i → codeChunk df1 i = [])
    ∧ sjoin (([] : List (Row G)), d, p) = []
    ∧ sjoin_mp ([] : List (Row G)) p d = [] := by
  refine ⟨?_, sjoin_nil d p, ?_⟩
  · intro i hi
    have hb : batchSize df1.length = 1 := by
      have : df1.length / NUM_CPUS = 0 := Nat.div_eq_of_lt h
      simp [batchSize, this]
    simp only [codeChunk, hb, Nat.mul_one, pySlice]
    rw [List.drop_eq_nil_of_le hi, List.take_nil]
  · rw [List.eq_nil_iff_forall_not_mem]
    intro x hx
    obtain ⟨r, hr, -⟩ := (mem_sjoin_mp x [] p d).mp hx
    exact absurd hr (List.not_mem_nil r)

/-- C8: whatever order the workers complete in, `pool.map` returns the
per-chunk identifier lists in chunk order, so the coordinator's
concatenation puts chunk 0's matches first, then chunk 1's, and so on; the
scheduled run agrees with the sequential model `sjoin_mp`. -/
theorem C8_chunk_order {G : Type} [DecidableEq G] (order : List ℕ)
    (df1 : List (Row G)) (p : G → G → Bool) (d : List G)
    (h : order.Perm (List.range NUM_CPUS)) :
    sjoin_mp_sched order df1 p d
      = sjoin (codeChunk df1 0, d, p) ++ (sjoin (codeChunk df1 1, d, p)
        ++ (sjoin (codeChunk df1 2, d, p) ++ (sjoin (codeChunk df1 3, d, p)
        ++ (sjoin (codeChunk df1 4, d, p) ++ sjoin (codeChunk df1 5, d, p)))))
    ∧ sjoin_mp_sched order df1 p d = sjoin_mp df1 p d := by
  have he := sched_eq order df1 p d h
  refine ⟨?_, he⟩
  rw [he]
  unfold sjoin_mp chunkIterator
  rw [show List.range NUM_CPUS = [0, 1, 2, 3, 4, 5] from rfl]
  simp

/-- C9: the result of the join does not depend on the order in which the
workers complete — any two completion orders give the same identifier
sequence (hence the same identifier set), so two runs with the same inputs
agree. -/
theorem C9_schedule_independent {G : Type} [DecidableEq G]
    (o1 o2 : List ℕ) (df1 : List (Row G)) (p : G → G → Bool) (d : List G)
    (h1 : o1.Perm (List.range NUM_CPUS)) (h2 : o2.Perm (List.range NUM_CPUS)) :
    sjoin_mp_sched o1 df1 p d = sjoin_mp_sched o2 df1 p d := by
  rw [sched_eq o1 df1 p d h1, sched_eq o2 df1 p d h2]

/-- C10: `sjoin_mp` always builds exactly 6 chunk argument tuples and
dispatches exactly 6 worker invocations, even for an empty left collection,
because `batch_size = ⌊N/6⌋ + 1 ≥ 1` for every N. -/
theorem C10_always_six_chunks {G : Type} [DecidableEq G]
    (df1 : List (Row G)) (d : List G) (p : G → G → Bool) :
    (chunkIterator df1 d p).length = NUM_CPUS
    ∧ 1 ≤ batchSize df1.length
    ∧ ((chunkIterator df1 d p).map sjoin).length = NUM_CPUS := by
  refine ⟨by simp [chunkIterator], Nat.le_add_left 1 _, by simp [chunkIterator]⟩

/-! ### Witnesses -/

/-- Witness for C2: the 13-record scenario evaluated concretely. -/
theorem C2_chunk_ranges_witness :
    exampleThirteen.length = 13
    ∧ (List.range NUM_CPUS).map (fun i => (codeChunk exampleThirteen i).length)
        = [3, 3, 3, 3, 1, 0]
    ∧ ((List.range NUM_CPUS).map
        (fun i => (codeChunk exampleThirteen i).length)).sum = 13 :=
  ⟨by decide, (C2_chunk_ranges exampleThirteen).2 (by decide)⟩

/-- Witness for C3: the partition property evaluated on a concrete
collection and a concrete record position. -/
theorem C3_chunks_partition_witness :
    ((List.range NUM_CPUS).map (codeChunk exampleSix)).flatten = exampleSix
    ∧ ∃! i, i < NUM_CPUS ∧ i * batchSize exampleSix.length ≤ 4
        ∧ 4 < (i + 1) * batchSize exampleSix.length :=
  ⟨(C3_chunks_partition exampleSix).1,
    (C3_chunks_partition exampleSix).2 4 (by decide)⟩

/-- Witness for C5: a concrete matched identifier is an identifier of the
left collection. -/
theorem C5_result_subset_ids_witness :
    (0 : Int) ∈ ([(⟨0, 0⟩ : Row ℕ)]).map Row.id :=
  C5_result_subset_ids [(⟨0, 0⟩ : Row ℕ)] (fun _ _ => true) [7] 0 (by decide)

/-- Witness for C6: a concrete non-empty left collection joined against an
empty right collection. -/
theorem C6_empty_right_witness :
    sjoin_mp [(⟨0, 0⟩ : Row ℕ)] (fun _ _ => true) ([] : List ℕ) = [] :=
  C6_empty_right [(⟨0, 0⟩ : Row ℕ)] (fun _ _ => true) (by decide)

/-- Witness for C7: a concrete 1-record collection (smaller than the worker
count) has an empty chunk 3, and the empty-chunk and empty-collection cases
return empty results. -/
theorem C7_small_left_witness :
    codeChunk [(⟨0, 0⟩ : Row ℕ)] 3 = []
    ∧ sjoin (([] : List (Row ℕ)), ([7] : List ℕ), fun _ _ => true) = []
    ∧ sjoin_mp ([] : List (Row ℕ)) (fun _ _ => true) ([7] : List ℕ) = [] :=
  ⟨(C7_small_left [(⟨0, 0⟩ : Row ℕ)] [7] (fun _ _ => true) (by decide)).1 3
      (by decide),
   (C7_small_left [(⟨0, 0⟩ : Row ℕ)] [7] (fun _ _ => true) (by decide)).2.1,
   (C7_small_left [(⟨0, 0⟩ : Row ℕ)] [7] (fun _ _ => true) (by decide)).2.2⟩

/-- Witness for C8: a concrete out-of-order completion schedule still
yields the sequential result. -/
theorem C8_chunk_order_witness :
    sjoin_mp_sched [2, 0, 5, 1, 3, 4] exampleSix (fun a b => a = b)
        ([0] : List ℕ)
      = sjoin_mp exampleSix (fun a b => a = b) ([0] : List ℕ) :=
  (C8_chunk_order [2, 0, 5, 1, 3, 4] exampleSix (fun a b => a = b) [0]
    (by decide)).2

/-- Witness for C9: two concrete completion orders give the same result. -/
theorem C9_schedule_independent_witness :
    sjoin_mp_sched [5, 4, 3, 2, 1, 0] exampleSix (fun a b => a = b)
        ([0] : List ℕ)
      = sjoin_mp_sched [0, 1, 2, 3, 4, 5] exampleSix (fun a b => a = b)
        ([0] : List ℕ) :=
  C9_schedule_independent [5, 4, 3, 2, 1, 0] [0, 1, 2, 3, 4, 5] exampleSix
    (fun a b => a = b) [0] (by decide) (by decide)

/-- Witness for C1 (amended): a two-record left collection with distinct
identifiers, whose first record matches all three right geometries — its
identifier appears exactly 3 times. -/
theorem C1_count_eq_matches_witness :
    (sjoin_mp [(⟨0, 0⟩ : Row ℕ), ⟨1, 1⟩] (fun a b => a == b)
        [0, 0, 0]).count 0 = 3 := by
  have h := C1_count_eq_matches [(⟨0, 0⟩ : Row ℕ), ⟨1, 1⟩]
    (fun a b => a == b) [0, 0, 0] ⟨0, 0⟩ (by decide) (by decide)
  simpa using h
